import Mathlib

/-!
Verification of the tic-tac-toe move selector (`minimax_ai.py`).

The board is a list of 9 optional sides, row-major.  The module under
verification defines `decide_move` (policy wrapper), `_max_score` /
`_move_scores` (minimax evaluator and move generator) and
`_find_win_move` (immediate win/block finder).  The collaborators
`Side`, `has_won` and the board view come from the surrounding game
harness and are modelled from the specification.
-/

namespace MinimaxAi

/-- Modelled from the spec: `Side` is "one of two values; supports a
swap operation returning the opposite side. No other state." -/
inductive Side where
  | x : Side
  | o : Side
deriving DecidableEq, Repr

/-- Modelled from the spec: the `swap` operation on sides. -/
def Side.swap_side : Side → Side
  | .x => .o
  | .o => .x

/-- A board: an ordered sequence of 9 cells, each empty or owned by a side. -/
abbrev Board := List (Option Side)

/-- The 8 winning lines, in the fixed source order: rows, columns, diagonals
(`to_checks` in `_find_win_move`). -/
def to_checks : List (List Nat) :=
  [[0, 1, 2], [3, 4, 5], [6, 7, 8],
   [0, 3, 6], [1, 4, 7], [2, 5, 8],
   [0, 4, 8], [2, 4, 6]]

/-- Modelled from the spec: `has_won` is provided by the game harness
(`game.py`, not part of the sources here): "a `hasWon(board, side) -> bool`
predicate checking all 8 lines for three-in-a-row of `side`". -/
def has_won (board : Board) (side : Side) : Bool :=
  to_checks.any fun line => line.all fun i => board.getD i none == some side

/-- The indices of the empty cells of a board, in ascending order.  Both
`decide_move` (`avail_moves`) and `_move_scores` enumerate empty cells this
way (`i for i in range(len(board)) if board[i] is None`). -/
def emptyIdxs (board : Board) : List Nat :=
  (List.range board.length).filter fun i => (board.getD i none).isNone

/-- Number of empty cells of a board; the measure that shrinks at each
recursive minimax call. -/
def countEmpty (board : Board) : Nat :=
  (emptyIdxs board).length

/-- Python's `max` on a non-empty sequence (the empty case never arises in
`_max_score`: it is guarded by the full-board base case). -/
def maxOfList : List Int → Int
  | [] => 0
  | v :: vs => vs.foldl max v

/-- Python's `min` on a non-empty sequence. -/
def minOfList : List Int → Int
  | [] => 0
  | v :: vs => vs.foldl min v

theorem length_set_eq (b : Board) (i : Nat) (v : Option Side) :
    (b.set i v).length = b.length := by
  simp

theorem getD_set_self (b : Board) (i : Nat) (v : Option Side) (h : i < b.length) :
    (b.set i v).getD i none = v := by
  simp [List.getD, List.getElem?_set_self, h]

theorem getD_set_ne (b : Board) (i j : Nat) (v : Option Side) (h : i ≠ j) :
    (b.set i v).getD j none = b.getD j none := by
  simp [List.getD, List.getElem?_set_ne h]

theorem mem_emptyIdxs (b : Board) (i : Nat) :
    i ∈ emptyIdxs b ↔ i < b.length ∧ b.getD i none = none := by
  simp [emptyIdxs, List.mem_filter, List.mem_range, Option.isNone_iff_eq_none]

theorem emptyIdxs_set_some (b : Board) (i : Nat) (s : Side) (hi : i ∈ emptyIdxs b) :
    emptyIdxs (b.set i (some s)) = (emptyIdxs b).filter fun j => j ≠ i := by
  obtain ⟨hlt, _⟩ := (mem_emptyIdxs b i).1 hi
  unfold emptyIdxs
  rw [length_set_eq, List.filter_filter]
  apply List.filter_congr
  intro j hj
  rcases eq_or_ne j i with rfl | hne
  · rw [getD_set_self b j (some s) hlt]
    simp
  · rw [getD_set_ne b i j (some s) (Ne.symm hne)]
    simp [hne]

theorem countEmpty_set_some_lt (b : Board) (i : Nat) (s : Side) (hi : i ∈ emptyIdxs b) :
    countEmpty (b.set i (some s)) < countEmpty b := by
  unfold countEmpty
  rw [emptyIdxs_set_some b i s hi]
  exact List.length_filter_lt_length_iff_exists.mpr ⟨i, hi, by simp⟩

/--
Shallow embedding of `_max_score`.  The source is mutually recursive with
the generator `_move_scores`; here the per-move recursion is inlined (the
generator itself is recovered verbatim as `move_scores` below, and
`max_score_rec` re-states this body in terms of it).  Base cases in source
order: win for the maximizing side, win for the minimizing side, full board;
otherwise the maximizing flag is flipped and the scores of all moves are
aggregated with max (flag now true) or min (flag now false).
-/
def max_score (board : Board) (current_side : Side) (is_maximizing : Bool) : Int :=
  if is_maximizing && has_won board current_side then 1
  else if !is_maximizing && has_won board current_side.swap_side then -1
  else if !(board.any fun tile => tile.isNone) then 0
  else
    let m := !is_maximizing
    let scores := (emptyIdxs board).attach.map fun p =>
      max_score (board.set p.1 (some (if m then current_side else current_side.swap_side)))
        current_side m
    if m then maxOfList scores else minOfList scores
termination_by countEmpty board
decreasing_by
  exact countEmpty_set_some_lt board p.1 _ p.2

/-- Shallow embedding of `_move_scores`: one `(move, score)` pair per empty
cell in ascending index order; for each, the mark placed is `current_side`
when maximizing, else its swap, and the score is `_max_score` of the
resulting board.  (The generator's transient mutation of the shared board is
modelled separately by `move_scores_st`.) -/
def move_scores (board : Board) (current_side : Side) (is_maximizing : Bool) :
    List (Nat × Int) :=
  (emptyIdxs board).map fun i =>
    (i, max_score
          (board.set i (some (if is_maximizing then current_side else current_side.swap_side)))
          current_side is_maximizing)

/-- One step of the inner loop of `_find_win_move`: an empty cell becomes
the remembered `empty_spot`, a cell owned by `side` bumps `count`. -/
def line_step (board : Board) (side : Side) (acc : Nat × Option Nat) (i : Nat) :
    Nat × Option Nat :=
  match board.getD i none with
  | none => (acc.1, some i)
  | some s => (if s = side then acc.1 + 1 else acc.1, acc.2)

/-- The inner loop of `_find_win_move` over one line: the final
`(count, empty_spot)` pair, starting from `(0, None)`. -/
def line_scan (board : Board) (side : Side) (to_check : List Nat) : Nat × Option Nat :=
  to_check.foldl (line_step board side) (0, none)

/-- Shallow embedding of `_find_win_move`: scan the 8 lines in order; in each
line count the cells owned by `side` and remember the last empty cell; return
that cell for the first line with exactly two owned cells and an empty cell. -/
def find_win_move (board : Board) (side : Side) : Option Nat :=
  to_checks.findSome? fun to_check =>
    if (line_scan board side to_check).1 = 2 then (line_scan board side to_check).2
    else none

/-- One step of the best-move accumulation loop in `decide_move`: a strictly
better score restarts the list of best moves, an equal score appends to it,
a worse score is dropped. -/
def best_step (acc : List Nat × Int) (p : Nat × Int) : List Nat × Int :=
  if p.2 > acc.2 then ([p.1], p.2)
  else if p.2 = acc.2 then (acc.1 ++ [p.1], acc.2)
  else acc

/--
Shallow embedding of `MinimaxAi.decide_move`.  The random draws are made
explicit: `r1` and `r2` are the two `random.random()` results (uniform in
`[0,1)`), and `pick` resolves the random choices (`random.randrange(0, 9)`
becomes a pick from `[0, ..., 8]`; `random.choice(lst)` a pick from `lst`);
at most one pick happens per call, so a single function is fully general.
`think_chance` is the configured probability pair.  The empty deep-search
case (`next` on an exhausted generator, which raises in Python and is
unreachable when the board has an empty cell) is mapped to 0.
-/
def decide_move (think_chance : ℚ × ℚ) (board_view : Board) (current_side : Side)
    (r1 r2 : ℚ) (pick : List Nat → Nat) : Nat :=
  if board_view.all fun tile => tile.isNone then pick (List.range 9)
  else if r1 ≥ think_chance.1 then
    if r2 < think_chance.2 then
      match find_win_move board_view current_side with
      | some a => a
      | none =>
        match find_win_move board_view current_side.swap_side with
        | some a => a
        | none => pick (emptyIdxs board_view)
    else pick (emptyIdxs board_view)
  else
    match move_scores board_view current_side true with
    | [] => 0
    | (bm, ms) :: rest =>
      let acc := rest.foldl best_step ([bm], ms)
      pick acc.1

/-- The deep (full-minimax) path of `decide_move` on its own: score every
legal move, keep the set attaining the maximum, pick one of them. -/
def deep_move (board_view : Board) (current_side : Side)
    (pick : List Nat → Nat) : Nat :=
  match move_scores board_view current_side true with
  | [] => 0
  | (bm, ms) :: rest =>
    let acc := rest.foldl best_step ([bm], ms)
    pick acc.1

/--
Fuel-indexed interpreter for the `_max_score` recursion.  It models the
recursion operationally: the base cases answer directly, and each recursive
descent consumes one unit of fuel, returning `none` when the fuel runs out
mid-recursion.  `max_score_fuel_eq` below shows that `countEmpty board` fuel
always suffices, which is exactly the well-foundedness of the source's
mutual recursion (each recursive call strictly decreases the number of
empty cells).
-/
def max_score_fuel : Nat → Board → Side → Bool → Option Int
  | fuel, board, current_side, is_maximizing =>
    if is_maximizing && has_won board current_side then some 1
    else if !is_maximizing && has_won board current_side.swap_side then some (-1)
    else if !(board.any fun tile => tile.isNone) then some 0
    else
      match fuel with
      | 0 => none
      | fuel' + 1 =>
        let m := !is_maximizing
        match (emptyIdxs board).mapM
            (fun i => max_score_fuel fuel'
              (board.set i (some (if m then current_side else current_side.swap_side)))
              current_side m) with
        | none => none
        | some scores => some (if m then maxOfList scores else minOfList scores)

/-- Fuel-indexed move generator mirroring `_move_scores`. -/
def move_scores_fuel (fuel : Nat) (board : Board) (current_side : Side)
    (is_maximizing : Bool) : Option (List (Nat × Int)) :=
  (emptyIdxs board).mapM fun i =>
    (max_score_fuel fuel
        (board.set i (some (if is_maximizing then current_side else current_side.swap_side)))
        current_side is_maximizing).map fun sc => (i, sc)

theorem any_isNone_iff (b : Board) :
    (b.any fun tile => tile.isNone) = true ↔ emptyIdxs b ≠ [] := by
  constructor
  · intro h hemp
    rw [List.any_eq_true] at h
    obtain ⟨tile, htile, hnone⟩ := h
    obtain ⟨i, hi, rfl⟩ := List.mem_iff_getElem.1 htile
    have hmem : i ∈ emptyIdxs b := by
      rw [mem_emptyIdxs]
      refine ⟨hi, ?_⟩
      rw [List.getD_eq_getElem b none hi]
      simpa [Option.isNone_iff_eq_none] using hnone
    rw [hemp] at hmem
    simp at hmem
  · intro h
    obtain ⟨i, hi⟩ := List.exists_mem_of_ne_nil _ h
    obtain ⟨hlt, hnone⟩ := (mem_emptyIdxs b i).1 hi
    rw [List.any_eq_true]
    refine ⟨b[i], List.getElem_mem hlt, ?_⟩
    rw [List.getD_eq_getElem b none hlt] at hnone
    simp [hnone]

theorem countEmpty_pos_of_any (b : Board)
    (h : (b.any fun tile => tile.isNone) = true) : 1 ≤ countEmpty b := by
  have hne := (any_isNone_iff b).1 h
  have : 0 < (emptyIdxs b).length := List.length_pos.2 hne
  exact this

theorem mapM_option_map {α β : Type} (f : α → Option β) (g : α → β) :
    ∀ l : List α, (∀ a ∈ l, f a = some (g a)) → l.mapM f = some (l.map g)
  | [], _ => rfl
  | a :: l, h => by
    rw [List.mapM_cons, h a (List.mem_cons_self a l), mapM_option_map f g l
      (fun b hb => h b (List.mem_cons_of_mem a hb))]
    rfl

theorem max_score_fuel_eq (fuel : Nat) (board : Board) (current_side : Side)
    (is_maximizing : Bool) (h : countEmpty board ≤ fuel) :
    max_score_fuel fuel board current_side is_maximizing
      = some (max_score board current_side is_maximizing) := by
  induction fuel using Nat.strong_induction_on generalizing board is_maximizing with
  | _ fuel ih =>
    rw [max_score_fuel.eq_def, max_score]
    by_cases h1 : (is_maximizing && has_won board current_side) = true
    · simp [h1]
    · by_cases h2 : (!is_maximizing && has_won board current_side.swap_side) = true
      · simp [h1, h2]
      · by_cases h3 : (!(board.any fun tile => tile.isNone)) = true
        · simp [h1, h2, h3]
        · simp only [h1, h2, h3, if_false]
          have hpos : 1 ≤ countEmpty board := by
            apply countEmpty_pos_of_any
            revert h3
            cases board.any fun tile => tile.isNone <;> simp
          obtain ⟨fuel', rfl⟩ : ∃ fuel', fuel = fuel' + 1 := ⟨fuel - 1, by omega⟩
          · have hmap : (emptyIdxs board).mapM
                (fun i => max_score_fuel fuel'
                  (board.set i (some (if !is_maximizing then current_side
                    else current_side.swap_side)))
                  current_side (!is_maximizing))
                = some ((emptyIdxs board).map
                  (fun i => max_score
                    (board.set i (some (if !is_maximizing then current_side
                      else current_side.swap_side)))
                    current_side (!is_maximizing))) := by
              apply mapM_option_map
              intro i hi
              apply ih fuel' (Nat.lt_succ_self fuel')
              have hdec := countEmpty_set_some_lt board i
                (if !is_maximizing then current_side else current_side.swap_side) hi
              omega
            simp only [hmap]
            rw [List.attach_map_val (emptyIdxs board)
              (fun i => max_score
                (board.set i (some (if !is_maximizing then current_side
                  else current_side.swap_side)))
                current_side (!is_maximizing))]
            simp [h1, h2, h3]

theorem swap_side_ne (s : Side) : s.swap_side ≠ s := by
  cases s <;> simp [Side.swap_side]

theorem ne_swap_side (s : Side) : s ≠ s.swap_side := by
  cases s <;> simp [Side.swap_side]

theorem swap_side_swap_side (s : Side) : s.swap_side.swap_side = s := by
  cases s <;> rfl

/-- Bitmask image of a board for a given side: bit `i` is set iff cell `i`
is owned by that side.  Used only inside proofs, to run heavy game-tree
computations on a representation the kernel can evaluate quickly; the
bridge lemmas below tie it exactly to the source-level board functions. -/
def maskOf : Board → Side → Nat
  | [], _ => 0
  | c :: rest, s => Nat.bit (c == some s) (maskOf rest s)

/-- Mask analogue of `has_won`: same 8 lines, cells read with `testBit`. -/
def mWon (mk : Nat) : Bool :=
  to_checks.any fun line => line.all fun i => mk.testBit i

theorem all_congr_mem {α : Type} {p q : α → Bool} :
    ∀ l : List α, (∀ a ∈ l, p a = q a) → l.all p = l.all q
  | [], _ => rfl
  | a :: l, h => by
    rw [List.all_cons, List.all_cons, h a (List.mem_cons_self a l),
      all_congr_mem l (fun b hb => h b (List.mem_cons_of_mem a hb))]

theorem any_congr_mem {α : Type} {p q : α → Bool} :
    ∀ l : List α, (∀ a ∈ l, p a = q a) → l.any p = l.any q
  | [], _ => rfl
  | a :: l, h => by
    rw [List.any_cons, List.any_cons, h a (List.mem_cons_self a l),
      any_congr_mem l (fun b hb => h b (List.mem_cons_of_mem a hb))]

theorem testBit_maskOf (b : Board) (s : Side) :
    ∀ i, (maskOf b s).testBit i = (b.getD i none == some s) := by
  induction b with
  | nil => intro i; simp [maskOf]
  | cons c rest ih =>
    intro i
    cases i with
    | zero => rw [maskOf, Nat.testBit_bit_zero]; rfl
    | succ j => rw [maskOf, Nat.testBit_bit_succ, ih j]; rfl

theorem mWon_maskOf (b : Board) (s : Side) : mWon (maskOf b s) = has_won b s := by
  unfold mWon has_won
  simp only [testBit_maskOf]

theorem testBit_orMask (b : Board) (root : Side) (i : Nat) :
    (maskOf b root ||| maskOf b root.swap_side).testBit i
      = !(b.getD i none).isNone := by
  rw [Nat.testBit_or, testBit_maskOf, testBit_maskOf]
  cases hcell : b.getD i none with
  | none => rfl
  | some t => cases t <;> cases root <;> rfl

theorem full_of_mask (b : Board) (root : Side) (hlen : b.length = 9) :
    ((List.range 9).all fun i => (maskOf b root ||| maskOf b root.swap_side).testBit i)
      = !(b.any fun tile => tile.isNone) := by
  have hstep : ((List.range 9).all fun i =>
      (maskOf b root ||| maskOf b root.swap_side).testBit i)
      = ((List.range b.length).all fun i => !(b.getD i none).isNone) := by
    rw [hlen]
    apply all_congr_mem
    intro i _
    exact testBit_orMask b root i
  rw [hstep]
  rcases hany : b.any fun tile => tile.isNone with _ | _
  · simp only [Bool.not_false]
    rw [List.all_eq_true]
    intro i hi
    by_contra hcon
    have hempty : i ∈ emptyIdxs b := by
      rw [mem_emptyIdxs]
      refine ⟨List.mem_range.1 hi, ?_⟩
      revert hcon
      cases b.getD i none <;> simp
    have := (any_isNone_iff b).2 (List.ne_nil_of_mem hempty)
    rw [hany] at this
    exact Bool.false_ne_true this
  · simp only [Bool.not_true]
    have hne := (any_isNone_iff b).1 hany
    obtain ⟨i, hi⟩ := List.exists_mem_of_ne_nil _ hne
    obtain ⟨hlt, hnone⟩ := (mem_emptyIdxs b i).1 hi
    rw [List.all_eq_false]
    refine ⟨i, List.mem_range.2 hlt, ?_⟩
    rw [hnone]
    simp

theorem moves_of_mask (b : Board) (root : Side) (hlen : b.length = 9) :
    ((List.range 9).filter fun i =>
        !(maskOf b root ||| maskOf b root.swap_side).testBit i)
      = emptyIdxs b := by
  unfold emptyIdxs
  rw [hlen]
  apply List.filter_congr
  intro i _
  rw [testBit_orMask b root i, Bool.not_not]

theorem maskOf_set_same (b : Board) (i : Nat) (s : Side) (hlt : i < b.length) :
    maskOf (b.set i (some s)) s = maskOf b s ||| (1 <<< i) := by
  apply Nat.eq_of_testBit_eq
  intro j
  rw [testBit_maskOf, Nat.testBit_or, testBit_maskOf, Nat.one_shiftLeft,
    Nat.testBit_two_pow]
  rcases eq_or_ne i j with rfl | hne
  · rw [getD_set_self b i (some s) hlt]
    simp
  · rw [getD_set_ne b i j (some s) hne]
    simp [hne]

theorem maskOf_set_other (b : Board) (i : Nat) (s t : Side) (hne : s ≠ t)
    (hcell : b.getD i none = none) :
    maskOf (b.set i (some s)) t = maskOf b t := by
  apply Nat.eq_of_testBit_eq
  intro j
  rw [testBit_maskOf, testBit_maskOf]
  rcases eq_or_ne i j with rfl | hij
  · rcases Nat.lt_or_ge i b.length with hlt | hge
    · rw [getD_set_self b i (some s) hlt, hcell]
      simp [hne]
    · rw [List.set_eq_of_length_le hge]
  · rw [getD_set_ne b i j (some s) hij]

/-- Mask-world mirror of `max_score_fuel`: same recursion, but the board is
the pair of bitmasks `(rm, om)` of the root side and its opponent.
`mscore_eq_fuel` proves it agrees with `max_score_fuel` on every 9-cell
board; it exists because the kernel evaluates it much faster. -/
def mscore (fuel : Nat) (rm om : Nat) (m : Bool) : Option Int :=
    if m && mWon rm then some 1
    else if !m && mWon om then some (-1)
    else if (List.range 9).all (fun i => (rm ||| om).testBit i) then some 0
    else
      match fuel with
      | 0 => none
      | fuel' + 1 =>
        let m' := !m
        match ((List.range 9).filter fun i => !(rm ||| om).testBit i).mapM
            (fun i => if m' then mscore fuel' (rm ||| (1 <<< i)) om m'
                      else mscore fuel' rm (om ||| (1 <<< i)) m') with
        | none => none
        | some scores => some (if m' then maxOfList scores else minOfList scores)

/-- The bitmask of a line: one bit per cell index. -/
def lineMask : List Nat → Nat
  | [] => 0
  | i :: rest => lineMask rest ||| (1 <<< i)

/-- The 8 winning lines as bitmasks, in source order (`winMasks_eq` checks
them against `to_checks`). -/
def winMasks : List Nat := [7, 56, 448, 73, 146, 292, 273, 84]

/-- Mask analogue of `has_won` by mask inclusion, the cheapest form for the
kernel to evaluate. -/
def mWonMask (mk : Nat) : Bool :=
  winMasks.any fun w => w &&& mk == w

/-- Mask-world draw-or-better checker: at nodes where the root side is to
move it suffices that one move is good (`any`, which short-circuits), at
opponent nodes every reply must be good (`all`).  Sound but deliberately
one-sided: `mcanDraw_sound` shows a `true` answer bounds `max_score` from
below by 0. -/
def mcanDraw (fuel : Nat) (rm om : Nat) (m : Bool) : Bool :=
    if m && mWonMask rm then true
    else if !m && mWonMask om then false
    else if rm ||| om == 511 then true
    else
      match fuel with
      | 0 => false
      | fuel' + 1 =>
        let m' := !m
        if m' then
          (List.range 9).any fun i =>
            !(rm ||| om).testBit i && mcanDraw fuel' (rm ||| (1 <<< i)) om m'
        else
          (List.range 9).all fun i =>
            (rm ||| om).testBit i || mcanDraw fuel' rm (om ||| (1 <<< i)) m'

theorem mapM_option_congr {α β : Type} (f g : α → Option β) :
    ∀ l : List α, (∀ a ∈ l, f a = g a) → l.mapM f = l.mapM g
  | [], _ => rfl
  | a :: l, h => by
    rw [List.mapM_cons, List.mapM_cons, h a (List.mem_cons_self a l),
      mapM_option_congr f g l (fun b hb => h b (List.mem_cons_of_mem a hb))]

theorem le_foldl_max (c : Int) : ∀ (l : List Int) (v : Int), c ≤ v → c ≤ l.foldl max v
  | [], v, h => h
  | a :: l, v, h => le_foldl_max c l (max v a) (le_trans h (le_max_left v a))

theorem mem_le_foldl_max (c : Int) :
    ∀ (l : List Int) (v : Int), c ∈ l → c ≤ l.foldl max v
  | a :: l, v, h => by
    rcases List.mem_cons.1 h with rfl | hmem
    · exact le_foldl_max c l (max v c) (le_max_right v c)
    · exact mem_le_foldl_max c l (max v a) hmem

theorem le_maxOfList_of_mem (c : Int) (l : List Int) (h : c ∈ l) :
    c ≤ maxOfList l := by
  cases l with
  | nil => cases h
  | cons v vs =>
    rcases List.mem_cons.1 h with rfl | hmem
    · exact le_foldl_max c vs c le_rfl
    · exact mem_le_foldl_max c vs v hmem

theorem foldl_min_le (c : Int) : ∀ (l : List Int) (v : Int), v ≤ c → l.foldl min v ≤ c
  | [], _, h => h
  | a :: l, v, h => foldl_min_le c l (min v a) (le_trans (min_le_left v a) h)

theorem foldl_min_ge (c : Int) :
    ∀ (l : List Int) (v : Int), c ≤ v → (∀ x ∈ l, c ≤ x) → c ≤ l.foldl min v
  | [], v, hv, _ => hv
  | a :: l, v, hv, h => by
    apply foldl_min_ge c l (min v a) (le_min hv (h a (List.mem_cons_self a l)))
    intro x hx
    exact h x (List.mem_cons_of_mem a hx)

theorem le_minOfList (c : Int) (l : List Int) (hne : l ≠ [])
    (h : ∀ x ∈ l, c ≤ x) : c ≤ minOfList l := by
  cases l with
  | nil => exact absurd rfl hne
  | cons v vs =>
    apply foldl_min_ge c vs v (h v (List.mem_cons_self v vs))
    intro x hx
    exact h x (List.mem_cons_of_mem v hx)

theorem mscore_eq_fuel (fuel : Nat) (b : Board) (root : Side) (m : Bool)
    (hlen : b.length = 9) :
    mscore fuel (maskOf b root) (maskOf b root.swap_side) m
      = max_score_fuel fuel b root m := by
  induction fuel generalizing b m with
  | zero =>
    rw [mscore.eq_def, max_score_fuel.eq_def,
      mWon_maskOf b root, mWon_maskOf b root.swap_side, full_of_mask b root hlen]
  | succ fuel' ih =>
    rw [mscore.eq_def, max_score_fuel.eq_def,
      mWon_maskOf b root, mWon_maskOf b root.swap_side, full_of_mask b root hlen,
      moves_of_mask b root hlen]
    by_cases h1 : (m && has_won b root) = true
    · simp only [h1, if_true]
    · by_cases h2 : (!m && has_won b root.swap_side) = true
      · simp only [h1, h2, if_true, if_false]
      · by_cases h3 : (!(b.any fun tile => tile.isNone)) = true
        · simp only [h1, h2, h3, if_true, if_false]
        · simp only [h1, h2, h3, if_false]
          have hmap : (emptyIdxs b).mapM
              (fun i => if !m then mscore fuel' (maskOf b root ||| (1 <<< i))
                  (maskOf b root.swap_side) (!m)
                else mscore fuel' (maskOf b root)
                  (maskOf b root.swap_side ||| (1 <<< i)) (!m))
              = (emptyIdxs b).mapM
              (fun i => max_score_fuel fuel'
                (b.set i (some (if !m then root else root.swap_side))) root (!m)) := by
            apply mapM_option_congr
            intro i hi
            obtain ⟨hlt, hcell⟩ := (mem_emptyIdxs b i).1 hi
            have hlen' : (b.set i (some (if !m then root else root.swap_side))).length = 9 := by
              rw [length_set_eq, hlen]
            cases m with
            | false =>
              simp only [Bool.not_false, if_true]
              rw [← maskOf_set_same b i root hlt,
                ← maskOf_set_other b i root root.swap_side (ne_swap_side root) hcell]
              exact ih (b.set i (some root)) true (by rw [length_set_eq, hlen])
            | true =>
              simp only [Bool.not_true, if_false]
              rw [← maskOf_set_same b i root.swap_side hlt,
                ← maskOf_set_other b i root.swap_side root (swap_side_ne root) hcell]
              exact ih (b.set i (some root.swap_side)) false (by rw [length_set_eq, hlen])
          simp only [hmap]

theorem testBit_lineMask : ∀ (line : List Nat) (j : Nat),
    (lineMask line).testBit j = true ↔ j ∈ line
  | [], j => by simp [lineMask]
  | i :: rest, j => by
    rw [lineMask, Nat.testBit_or, Nat.one_shiftLeft, Nat.testBit_two_pow,
      Bool.or_eq_true, testBit_lineMask rest j, decide_eq_true_eq, List.mem_cons]
    constructor
    · rintro (h | h)
      · exact Or.inr h
      · exact Or.inl h.symm
    · rintro (h | h)
      · exact Or.inr h.symm
      · exact Or.inl h

theorem winMasks_eq : winMasks = to_checks.map lineMask := by decide

theorem and_mask_eq_iff (w mk : Nat) :
    w &&& mk = w ↔ ∀ j, w.testBit j = true → mk.testBit j = true := by
  constructor
  · intro h j hj
    have hb := congrArg (fun n => n.testBit j) h
    simp only [Nat.testBit_and] at hb
    rw [hj] at hb
    simpa using hb
  · intro h
    apply Nat.eq_of_testBit_eq
    intro j
    rw [Nat.testBit_and]
    cases hw : w.testBit j
    · simp
    · simp [h j hw]

theorem any_map_eq {α β : Type} (f : α → β) (p : β → Bool) :
    ∀ l : List α, (l.map f).any p = l.any fun a => p (f a)
  | [] => rfl
  | a :: l => by
    rw [List.map_cons, List.any_cons, List.any_cons, any_map_eq f p l]

theorem mWonMask_eq_mWon (mk : Nat) : mWonMask mk = mWon mk := by
  unfold mWonMask mWon
  rw [winMasks_eq, any_map_eq]
  apply any_congr_mem
  intro line hline
  rcases hall : line.all fun i => mk.testBit i with _ | _
  · rw [List.all_eq_false] at hall
    obtain ⟨i, hi, hbit⟩ := hall
    refine beq_eq_false_iff_ne.2 ?_
    intro hcon
    rw [and_mask_eq_iff] at hcon
    exact hbit (hcon i ((testBit_lineMask line i).2 hi))
  · rw [List.all_eq_true] at hall
    have heq : lineMask line &&& mk = lineMask line := by
      rw [and_mask_eq_iff]
      intro j hj
      exact hall j ((testBit_lineMask line j).1 hj)
    rw [heq]
    simp

theorem mWonMask_maskOf (b : Board) (s : Side) :
    mWonMask (maskOf b s) = has_won b s := by
  rw [mWonMask_eq_mWon, mWon_maskOf]

theorem testBit_511 (j : Nat) : (511 : Nat).testBit j = true ↔ j < 9 := by
  have h511 : (511 : Nat) = lineMask [0, 1, 2, 3, 4, 5, 6, 7, 8] := by decide
  rw [h511, testBit_lineMask]
  constructor
  · intro hmem
    fin_cases hmem <;> omega
  · intro hj
    interval_cases j <;> simp

theorem full511_of_mask (b : Board) (root : Side) (hlen : b.length = 9) :
    ((maskOf b root ||| maskOf b root.swap_side) == 511)
      = !(b.any fun tile => tile.isNone) := by
  have hbits := testBit_orMask b root
  rcases hany : b.any fun tile => tile.isNone with _ | _
  · simp only [Bool.not_false]
    refine beq_iff_eq.2 ?_
    apply Nat.eq_of_testBit_eq
    intro j
    rcases Nat.lt_or_ge j 9 with hj | hj
    · rw [hbits j]
      rw [List.any_eq_false] at hany
      have hjl : j < b.length := by
        rw [hlen]
        exact hj
      have hcell : b[j].isNone = false := by
        have hc := hany (b[j]) (List.getElem_mem hjl)
        revert hc
        cases b[j].isNone <;> simp
      rw [List.getD_eq_getElem b none hjl, hcell, (testBit_511 j).2 hj]
      rfl
    · rw [hbits j]
      rw [List.getD_eq_default]
      · cases hb : (511 : Nat).testBit j
        · rfl
        · exact absurd ((testBit_511 j).1 hb) (by omega)
      · rw [hlen]
        exact hj
  · simp only [Bool.not_true]
    have hne := (any_isNone_iff b).1 hany
    obtain ⟨i, hi⟩ := List.exists_mem_of_ne_nil _ hne
    obtain ⟨hlt, hcell⟩ := (mem_emptyIdxs b i).1 hi
    refine beq_eq_false_iff_ne.2 ?_
    intro hcon
    have hbit := congrArg (fun n => n.testBit i) hcon
    simp only at hbit
    rw [hbits i, hcell, (testBit_511 i).2 (by rw [hlen] at hlt; exact hlt)] at hbit
    simp at hbit

theorem mcanDraw_sound (fuel : Nat) (b : Board) (root : Side) (m : Bool)
    (hlen : b.length = 9) (hfuel : countEmpty b ≤ fuel)
    (h : mcanDraw fuel (maskOf b root) (maskOf b root.swap_side) m = true) :
    0 ≤ max_score b root m := by
  induction fuel generalizing b m with
  | zero =>
    rw [mcanDraw.eq_def, mWonMask_maskOf b root, mWonMask_maskOf b root.swap_side,
      full511_of_mask b root hlen] at h
    rw [max_score]
    by_cases h1 : (m && has_won b root) = true
    · simp [h1]
    · by_cases h2 : (!m && has_won b root.swap_side) = true
      · simp only [h1, h2, if_true, if_false] at h
        exact absurd h (by simp)
      · by_cases h3 : (!(b.any fun tile => tile.isNone)) = true
        · simp [h1, h2, h3]
        · simp only [h1, h2, h3, if_false] at h
          exact absurd h (by simp)
  | succ fuel' ih =>
    rw [mcanDraw.eq_def, mWonMask_maskOf b root, mWonMask_maskOf b root.swap_side,
      full511_of_mask b root hlen] at h
    rw [max_score]
    by_cases h1 : (m && has_won b root) = true
    · simp [h1]
    · by_cases h2 : (!m && has_won b root.swap_side) = true
      · simp only [h1, h2, if_true, if_false] at h
        exact absurd h (by simp)
      · by_cases h3 : (!(b.any fun tile => tile.isNone)) = true
        · simp [h1, h2, h3]
        · simp only [h1, h2, h3, if_false] at h
          simp only [h1, h2, h3, if_false]
          cases m with
          | false =>
            simp only [Bool.not_false, Bool.not_true, Bool.false_eq_true, if_true,
              if_false, Bool.false_and, Bool.true_and] at h ⊢
            rw [List.any_eq_true] at h
            obtain ⟨i, hirange, hcomb⟩ := h
            rw [Bool.and_eq_true] at hcomb
            obtain ⟨hbit, hchild⟩ := hcomb
            have hlt : i < b.length := by
              rw [hlen]
              exact List.mem_range.1 hirange
            have hcell : b.getD i none = none := by
              rw [testBit_orMask b root i] at hbit
              revert hbit
              cases b.getD i none <;> simp
            have hi : i ∈ emptyIdxs b := (mem_emptyIdxs b i).2 ⟨hlt, hcell⟩
            rw [← maskOf_set_same b i root hlt,
              ← maskOf_set_other b i root root.swap_side (ne_swap_side root) hcell]
              at hchild
            have hscore := ih (b.set i (some root)) true (by rw [length_set_eq, hlen])
              (by
                have := countEmpty_set_some_lt b i root hi
                omega)
              hchild
            apply le_trans hscore
            apply le_maxOfList_of_mem
            rw [List.mem_map]
            exact ⟨⟨i, hi⟩, List.mem_attach (emptyIdxs b) ⟨i, hi⟩, rfl⟩
          | true =>
            simp only [Bool.not_false, Bool.not_true, Bool.false_eq_true, if_true,
              if_false, Bool.false_and, Bool.true_and] at h ⊢
            rw [List.all_eq_true] at h
            apply le_minOfList
            · intro hnil
              have hne : emptyIdxs b ≠ [] := by
                apply (any_isNone_iff b).1
                revert h3
                cases b.any fun tile => tile.isNone <;> simp
              rcases hemp : emptyIdxs b with _ | ⟨j, rest⟩
              · exact hne hemp
              · rw [hemp] at hnil
                simp at hnil
            · intro x hx
              rw [List.mem_map] at hx
              obtain ⟨⟨i, hi⟩, _, rfl⟩ := hx
              obtain ⟨hlt, hcell⟩ := (mem_emptyIdxs b i).1 hi
              have hcombined := h i (List.mem_range.2 (by rw [hlen] at hlt; exact hlt))
              rw [Bool.or_eq_true] at hcombined
              have hchild : mcanDraw fuel' (maskOf b root)
                  (maskOf b root.swap_side ||| (1 <<< i)) false = true := by
                rcases hcombined with hbit | hch
                · rw [testBit_orMask b root i, hcell] at hbit
                  exact absurd hbit (by simp)
                · exact hch
              rw [← maskOf_set_same b i root.swap_side hlt,
                ← maskOf_set_other b i root.swap_side root (swap_side_ne root) hcell]
                at hchild
              exact ih (b.set i (some root.swap_side)) false (by rw [length_set_eq, hlen])
                (by
                  have := countEmpty_set_some_lt b i root.swap_side hi
                  omega)
                hchild

/-- The exhaustively checked fact that every opening move of tic-tac-toe is a
draw or better for the mover: from each of the 9 one-mark boards (mask
`2 ^ k` for the mover, `0` for the opponent), the mover can at least draw. -/
theorem mcanDraw_openings :
    ((List.range 9).all fun k => mcanDraw 8 (1 <<< k) 0 true) = true := by decide!

theorem maskOf_replicate (s : Side) :
    maskOf (List.replicate 9 (none : Option Side)) s = 0 := by
  simp [maskOf, List.replicate, Nat.bit]

theorem getD_replicate_none (k : Nat) :
    (List.replicate 9 (none : Option Side)).getD k none = none := by
  rcases Nat.lt_or_ge k 9 with hk | hk
  · rw [List.getD_eq_getElem _ _ (by simpa using hk)]
    interval_cases k <;> rfl
  · rw [List.getD_eq_default]
    simpa using hk

theorem opening_nonneg (s : Side) (k : Nat) (hk : k < 9) :
    0 ≤ max_score ((List.replicate 9 (none : Option Side)).set k (some s)) s true := by
  have hcell := getD_replicate_none k
  have hmem : k ∈ emptyIdxs (List.replicate 9 (none : Option Side)) := by
    rw [mem_emptyIdxs]
    exact ⟨by simpa using hk, hcell⟩
  apply mcanDraw_sound 8 _ s true
  · simp
  · have hlt := countEmpty_set_some_lt (List.replicate 9 none) k s hmem
    have h9 : countEmpty (List.replicate 9 (none : Option Side)) = 9 := by rfl
    omega
  · rw [maskOf_set_same _ k s (by simpa using hk),
      maskOf_set_other _ k s s.swap_side (ne_swap_side s) hcell,
      maskOf_replicate, maskOf_replicate]
    have := List.all_eq_true.1 mcanDraw_openings k (List.mem_range.2 hk)
    simpa using this

/--
Modelled from the spec: the game-theoretic value of a position from
`root_side`'s fixed perspective (+1 = rootSide wins, -1 = rootSide loses,
0 = draw) under optimal play by both sides.  This is the reference the
evaluator is compared against; it is written from the spec's words, not
from the code.  A position is terminal as soon as either side has
three-in-a-row or the board is full; otherwise the side to move (the root
side when `root_just_moved` is false, its opponent when true, matching the
`is_maximizing` convention of the evaluator) picks its best move: the root
side maximizes, the opponent minimizes.
-/
def gameValueSpec (board : Board) (root_side : Side) (root_just_moved : Bool) : Int :=
  if has_won board root_side then 1
  else if has_won board root_side.swap_side then -1
  else if !(board.any fun tile => tile.isNone) then 0
  else
    let mover := if root_just_moved then root_side.swap_side else root_side
    let vals := (emptyIdxs board).attach.map fun p =>
      gameValueSpec (board.set p.1 (some mover)) root_side (!root_just_moved)
    if root_just_moved then minOfList vals else maxOfList vals
termination_by countEmpty board
decreasing_by
  exact countEmpty_set_some_lt board p.1 _ p.2

theorem mWon_or_left (mk x : Nat) (h : mWon mk = true) : mWon (mk ||| x) = true := by
  unfold mWon at h ⊢
  rw [List.any_eq_true] at h ⊢
  obtain ⟨line, hline, hall⟩ := h
  refine ⟨line, hline, ?_⟩
  rw [List.all_eq_true] at hall ⊢
  intro i hi
  rw [Nat.testBit_or, hall i hi]
  rfl

theorem has_won_set_other (b : Board) (i : Nat) (s t : Side) (hne : s ≠ t)
    (hcell : b.getD i none = none) :
    has_won (b.set i (some s)) t = has_won b t := by
  rw [← mWon_maskOf, ← mWon_maskOf, maskOf_set_other b i s t hne hcell]

theorem has_won_set_mono (b : Board) (i : Nat) (s : Side) (hlt : i < b.length)
    (h : has_won b s = true) : has_won (b.set i (some s)) s = true := by
  rw [← mWon_maskOf, maskOf_set_same b i s hlt]
  exact mWon_or_left _ _ ((mWon_maskOf b s).symm ▸ h)

theorem map_congr_mem {α β : Type} {f g : α → β} :
    ∀ l : List α, (∀ a ∈ l, f a = g a) → l.map f = l.map g
  | [], _ => rfl
  | a :: l, h => by
    rw [List.map_cons, List.map_cons, h a (List.mem_cons_self a l),
      map_congr_mem l (fun b hb => h b (List.mem_cons_of_mem a hb))]

theorem foldl_max_mem : ∀ (l : List Int) (v : Int), l.foldl max v ∈ v :: l
  | [], v => List.mem_cons_self v []
  | a :: l, v => by
    rw [List.foldl_cons]
    rcases List.mem_cons.1 (foldl_max_mem l (max v a)) with heq | hmem
    · rw [heq]
      rcases max_choice v a with hv | ha
      · rw [hv]
        exact List.mem_cons_self v (a :: l)
      · rw [ha]
        exact List.mem_cons_of_mem v (List.mem_cons_self a l)
    · exact List.mem_cons_of_mem v (List.mem_cons_of_mem a hmem)

theorem maxOfList_mem (l : List Int) (hne : l ≠ []) : maxOfList l ∈ l := by
  cases l with
  | nil => exact absurd rfl hne
  | cons v vs => exact foldl_max_mem vs v

theorem foldl_min_mem : ∀ (l : List Int) (v : Int), l.foldl min v ∈ v :: l
  | [], v => List.mem_cons_self v []
  | a :: l, v => by
    rw [List.foldl_cons]
    rcases List.mem_cons.1 (foldl_min_mem l (min v a)) with heq | hmem
    · rw [heq]
      rcases min_choice v a with hv | ha
      · rw [hv]
        exact List.mem_cons_self v (a :: l)
      · rw [ha]
        exact List.mem_cons_of_mem v (List.mem_cons_self a l)
    · exact List.mem_cons_of_mem v (List.mem_cons_of_mem a hmem)

theorem minOfList_mem (l : List Int) (hne : l ≠ []) : minOfList l ∈ l := by
  cases l with
  | nil => exact absurd rfl hne
  | cons v vs => exact foldl_min_mem vs v

theorem emptyIdxs_ne_nil (b : Board)
    (h3 : ¬(!(b.any fun tile => tile.isNone)) = true) : emptyIdxs b ≠ [] := by
  apply (any_isNone_iff b).1
  revert h3
  cases b.any fun tile => tile.isNone <;> simp

theorem scores_ne_nil {β : Type} (b : Board) (f : {x // x ∈ emptyIdxs b} → β)
    (h3 : ¬(!(b.any fun tile => tile.isNone)) = true) :
    (emptyIdxs b).attach.map f ≠ [] := by
  have hne := emptyIdxs_ne_nil b h3
  intro hcon
  exact hne (List.pmap_eq_nil_iff.mp (List.map_eq_nil_iff.mp hcon))

/-- The evaluator only ever returns -1, 0 or 1. -/
theorem max_score_range (b : Board) (root : Side) (m : Bool) :
    max_score b root m = -1 ∨ max_score b root m = 0 ∨ max_score b root m = 1 := by
  have H : ∀ (n : Nat) (b : Board) (m : Bool), countEmpty b = n →
      max_score b root m = -1 ∨ max_score b root m = 0 ∨ max_score b root m = 1 := by
    intro n
    induction n using Nat.strong_induction_on with
    | _ n ih =>
      intro b m hn
      rw [max_score]
      by_cases h1 : (m && has_won b root) = true
      · simp [h1]
      · by_cases h2 : (!m && has_won b root.swap_side) = true
        · simp [h1, h2]
        · by_cases h3 : (!(b.any fun tile => tile.isNone)) = true
          · simp [h1, h2, h3]
          · simp only [h1, h2, h3, if_false]
            cases m with
            | false =>
              simp only [Bool.not_false, eq_self_iff_true, if_true]
              have hm' := maxOfList_mem
                ((emptyIdxs b).attach.map fun p =>
                  max_score (b.set p.1 (some root)) root true)
                (scores_ne_nil b _ h3)
              rw [List.mem_map] at hm'
              obtain ⟨p, _, heq⟩ := hm'
              rw [← heq]
              exact ih (countEmpty (b.set p.1 (some root)))
                (hn ▸ countEmpty_set_some_lt b p.1 _ p.2) _ true rfl
            | true =>
              simp only [Bool.not_true, Bool.false_eq_true, if_false]
              have hm' := minOfList_mem
                ((emptyIdxs b).attach.map fun p =>
                  max_score (b.set p.1 (some root.swap_side)) root false)
                (scores_ne_nil b _ h3)
              rw [List.mem_map] at hm'
              obtain ⟨p, _, heq⟩ := hm'
              rw [← heq]
              exact ih (countEmpty (b.set p.1 (some root.swap_side)))
                (hn ▸ countEmpty_set_some_lt b p.1 _ p.2) _ false rfl
  exact H (countEmpty b) b m rfl

/--
The evaluator agrees with the spec-level game value whenever the side about
to move (the opponent of the root side when `is_maximizing` is true, the
root side itself when it is false) has not already won.  This hypothesis is
what the evaluator's two one-sided win checks rely on; it holds throughout
its own recursion.
-/
theorem max_score_eq_gameValueSpec (b : Board) (root : Side) (m : Bool)
    (hmover : has_won b (if m then root.swap_side else root) = false) :
    max_score b root m = gameValueSpec b root m := by
  have H : ∀ (n : Nat) (b : Board) (m : Bool), countEmpty b = n →
      has_won b (if m then root.swap_side else root) = false →
      max_score b root m = gameValueSpec b root m := by
    intro n
    induction n using Nat.strong_induction_on with
    | _ n ih =>
      intro b m hn hmover
      rw [max_score, gameValueSpec]
      cases m with
      | true =>
        simp only [if_true] at hmover
        by_cases hw : has_won b root = true
        · simp [hw]
        · have hwf : has_won b root = false := by
            revert hw
            cases has_won b root <;> simp
          rw [hwf, hmover]
          by_cases h3 : (!(b.any fun tile => tile.isNone)) = true
          · simp [h3]
          · simp only [h3, Bool.true_and, Bool.not_true, Bool.false_and,
              Bool.false_eq_true, if_false]
            congr 1
            apply map_congr_mem
            intro p _
            obtain ⟨hlt, hcell⟩ := (mem_emptyIdxs b p.1).1 p.2
            have hchild : has_won (b.set p.1 (some root.swap_side))
                (if false then root.swap_side else root) = false := by
              simp only [Bool.false_eq_true, if_false]
              rw [has_won_set_other b p.1 root.swap_side root (swap_side_ne root) hcell]
              exact hwf
            exact ih (countEmpty (b.set p.1 (some root.swap_side)))
              (hn ▸ countEmpty_set_some_lt b p.1 _ p.2) _ false rfl hchild
      | false =>
        simp only [Bool.false_eq_true, if_false] at hmover
        by_cases hw2 : has_won b root.swap_side = true
        · simp [hmover, hw2]
        · have hw2f : has_won b root.swap_side = false := by
            revert hw2
            cases has_won b root.swap_side <;> simp
          rw [hmover, hw2f]
          by_cases h3 : (!(b.any fun tile => tile.isNone)) = true
          · simp [h3]
          · simp only [h3, Bool.not_false, Bool.true_and, Bool.false_and,
              Bool.false_eq_true, if_false, if_true]
            congr 1
            apply map_congr_mem
            intro p _
            obtain ⟨hlt, hcell⟩ := (mem_emptyIdxs b p.1).1 p.2
            have hchild : has_won (b.set p.1 (some root))
                (if true then root.swap_side else root) = false := by
              simp only [if_true]
              rw [has_won_set_other b p.1 root root.swap_side (ne_swap_side root) hcell]
              exact hw2f
            exact ih (countEmpty (b.set p.1 (some root)))
              (hn ▸ countEmpty_set_some_lt b p.1 _ p.2) _ true rfl hchild
  exact H (countEmpty b) b m rfl hmover

/-- Evaluate `max_score` at a concrete board through the fueled mask mirror,
which the kernel can compute. -/
theorem max_score_eval (fuel : Nat) (b : Board) (root : Side) (m : Bool) (v : Int)
    (hlen : b.length = 9) (hfuel : countEmpty b ≤ fuel)
    (h : mscore fuel (maskOf b root) (maskOf b root.swap_side) m = some v) :
    max_score b root m = v := by
  have h1 := mscore_eq_fuel fuel b root m hlen
  have h2 := max_score_fuel_eq fuel b root m hfuel
  rw [h2, h] at h1
  exact ((Option.some.injEq v (max_score b root m)).mp h1).symm

theorem mem_move_scores (b : Board) (s : Side) (m : Bool) (j : Nat) (sc : Int)
    (h : (j, sc) ∈ move_scores b s m) :
    j ∈ emptyIdxs b
      ∧ sc = max_score (b.set j (some (if m then s else s.swap_side))) s m := by
  unfold move_scores at h
  rw [List.mem_map] at h
  obtain ⟨i, hi, heq⟩ := h
  obtain ⟨rfl, rfl⟩ := Prod.mk.injEq .. ▸ heq
  exact ⟨hi, rfl⟩

theorem move_scores_ne_nil (b : Board) (s : Side) (m : Bool)
    (hemp : (b.any fun tile => tile.isNone) = true) :
    move_scores b s m ≠ [] := by
  unfold move_scores
  intro hcon
  exact (any_isNone_iff b).1 hemp (List.map_eq_nil_iff.mp hcon)

/-- Invariant of the best-move accumulation loop: the accumulated list is
never empty, every accumulated move is paired with the running maximum
either among the processed pairs or in the initial accumulator, and the
running maximum dominates the initial value and every processed score. -/
theorem foldBest_invariant :
    ∀ (rest : List (Nat × Int)) (acc : List Nat × Int), acc.1 ≠ [] →
      (rest.foldl best_step acc).1 ≠ []
      ∧ (∀ j ∈ (rest.foldl best_step acc).1,
          (j, (rest.foldl best_step acc).2) ∈ rest
            ∨ (j ∈ acc.1 ∧ (rest.foldl best_step acc).2 = acc.2))
      ∧ acc.2 ≤ (rest.foldl best_step acc).2
      ∧ ∀ p ∈ rest, p.2 ≤ (rest.foldl best_step acc).2
  | [], acc, hne => ⟨hne, fun j hj => Or.inr ⟨hj, rfl⟩, le_rfl, fun p hp => absurd hp (by simp)⟩
  | p :: rest, acc, hne => by
    rw [List.foldl_cons]
    have hne' : (best_step acc p).1 ≠ [] := by
      unfold best_step
      by_cases hgt : p.2 > acc.2
      · rw [if_pos hgt]
        simp
      · rw [if_neg hgt]
        by_cases heq : p.2 = acc.2
        · rw [if_pos heq]
          simp
        · rw [if_neg heq]
          exact hne
    obtain ⟨ih1, ih2, ih3, ih4⟩ := foldBest_invariant rest (best_step acc p) hne'
    have hacc2 : acc.2 ≤ (best_step acc p).2 := by
      unfold best_step
      by_cases hgt : p.2 > acc.2
      · rw [if_pos hgt]
        exact le_of_lt hgt
      · rw [if_neg hgt]
        by_cases heq : p.2 = acc.2
        · rw [if_pos heq]
        · rw [if_neg heq]
    have hp2 : p.2 ≤ (best_step acc p).2 := by
      unfold best_step
      by_cases hgt : p.2 > acc.2
      · rw [if_pos hgt]
      · rw [if_neg hgt]
        by_cases heq : p.2 = acc.2
        · rw [if_pos heq]
          exact le_of_eq heq
        · rw [if_neg heq]
          omega
    refine ⟨ih1, ?_, le_trans hacc2 ih3, ?_⟩
    · intro j hj
      rcases ih2 j hj with hmem | ⟨hjacc, hval⟩
      · exact Or.inl (List.mem_cons_of_mem p hmem)
      · revert hjacc hval
        unfold best_step
        by_cases hgt : p.2 > acc.2
        · rw [if_pos hgt]
          intro hjacc hval
          rcases List.mem_singleton.1 hjacc with rfl
          exact Or.inl (by
            rw [hval]
            exact List.mem_cons_self p rest)
        · rw [if_neg hgt]
          by_cases heq : p.2 = acc.2
          · rw [if_pos heq]
            intro hjacc hval
            rcases List.mem_append.1 hjacc with hjl | hjr
            · exact Or.inr ⟨hjl, hval⟩
            · rcases List.mem_singleton.1 hjr with rfl
              refine Or.inl ?_
              rw [hval, ← heq]
              exact List.mem_cons_self p rest
          · rw [if_neg heq]
            intro hjacc hval
            exact Or.inr ⟨hjacc, hval⟩
    · intro q hq
      rcases List.mem_cons.1 hq with rfl | hqr
      · exact le_trans hp2 ih3
      · exact ih4 q hqr

theorem line_scan_fst (b : Board) (s : Side) :
    ∀ (line : List Nat) (acc : Nat × Option Nat),
      (line.foldl (line_step b s) acc).1
        = acc.1 + line.countP fun i => b.getD i none == some s
  | [], acc => by simp
  | i :: rest, acc => by
    rw [List.foldl_cons, line_scan_fst b s rest (line_step b s acc i),
      List.countP_cons]
    unfold line_step
    cases hcell : b.getD i none with
    | none => simp
    | some t =>
      by_cases ht : t = s
      · simp [ht]
        omega
      · have hbeq : (some t == some s) = false := by
          simp [ht]
        simp [ht, hbeq]

theorem line_scan_snd (b : Board) (s : Side) :
    ∀ (line : List Nat) (acc : Nat × Option Nat),
      (line.foldl (line_step b s) acc).2
        = (line.filter fun i => (b.getD i none).isNone).foldl (fun _ i => some i) acc.2
  | [], acc => by simp
  | i :: rest, acc => by
    rw [List.foldl_cons, line_scan_snd b s rest (line_step b s acc i)]
    unfold line_step
    cases hcell : b.getD i none with
    | none =>
      rw [List.filter_cons_of_pos (by rw [hcell]; rfl), List.foldl_cons]
    | some t =>
      rw [List.filter_cons_of_neg (by rw [hcell]; simp)]

theorem last_written_mem (j : Nat) :
    ∀ (l : List Nat) (a : Option Nat),
      l.foldl (fun _ i => some i) a = some j → j ∈ l ∨ a = some j
  | [], a, h => Or.inr h
  | i :: rest, a, h => by
    rw [List.foldl_cons] at h
    rcases last_written_mem j rest (some i) h with hmem | heq
    · exact Or.inl (List.mem_cons_of_mem i hmem)
    · refine Or.inl ?_
      rw [Option.some.injEq] at heq
      rw [← heq]
      exact List.mem_cons_self i rest

theorem to_checks_bound : ∀ line ∈ to_checks, ∀ i ∈ line, i < 9 := by decide

/-- Any index `_find_win_move` returns is an in-range empty cell. -/
theorem find_win_move_mem (b : Board) (s : Side) (j : Nat)
    (h : find_win_move b s = some j) : j < 9 ∧ b.getD j none = none := by
  unfold find_win_move at h
  obtain ⟨line, hline, hres⟩ := List.exists_of_findSome?_eq_some h
  by_cases hc : (line_scan b s line).1 = 2
  · rw [if_pos hc] at hres
    unfold line_scan at hres
    rw [line_scan_snd b s line (0, none)] at hres
    rcases last_written_mem j _ _ hres with hmem | habs
    · rw [List.mem_filter] at hmem
      obtain ⟨hmemline, hnone⟩ := hmem
      refine ⟨to_checks_bound line hline j hmemline, ?_⟩
      revert hnone
      cases b.getD j none <;> simp
    · exact absurd habs (by simp)
  · rw [if_neg hc] at hres
    exact absurd hres (by simp)

theorem countP_add_le_length {α : Type} (p q : α → Bool)
    (hdis : ∀ a, p a = true → q a = false) :
    ∀ l : List α, l.countP p + l.countP q ≤ l.length
  | [] => by simp
  | a :: l => by
    rw [List.countP_cons, List.countP_cons, List.length_cons]
    have ihl := countP_add_le_length p q hdis l
    rcases hp : p a with _ | _ <;> rcases hq : q a with _ | _
    · simp only [hp, hq, Bool.false_eq_true, if_false]
      omega
    · simp only [hp, hq, Bool.false_eq_true, eq_self_iff_true, if_false, if_true]
      omega
    · simp only [hp, hq, Bool.false_eq_true, eq_self_iff_true, if_false, if_true]
      omega
    · rw [hdis a hp] at hq
      exact absurd hq (by simp)

/-- Modelled from the spec: the immediate-win finder's contract in the
spec's own words.  Scan the 8 lines in the fixed order; a line qualifies if
exactly 2 of its cells belong to `side` and exactly 1 is empty; return the
empty cell of the first qualifying line, none if no line qualifies. -/
def firstQualifyingWinSpec (board : Board) (side : Side) : Option Nat :=
  to_checks.findSome? fun line =>
    if (line.countP fun i => board.getD i none == some side) = 2
        ∧ (line.countP fun i => (board.getD i none).isNone) = 1
    then (line.filter fun i => (board.getD i none).isNone).head?
    else none

theorem findSome?_congr_mem {α β : Type} (f g : α → Option β) :
    ∀ l : List α, (∀ a ∈ l, f a = g a) → l.findSome? f = l.findSome? g
  | [], _ => rfl
  | a :: l, h => by
    rw [List.findSome?_cons, List.findSome?_cons, h a (List.mem_cons_self a l),
      findSome?_congr_mem f g l (fun b hb => h b (List.mem_cons_of_mem a hb))]

theorem line_decision (b : Board) (s : Side) (line : List Nat)
    (hlen3 : line.length = 3) :
    (if (line_scan b s line).1 = 2 then (line_scan b s line).2 else none)
      = if (line.countP fun i => b.getD i none == some s) = 2
            ∧ (line.countP fun i => (b.getD i none).isNone) = 1
        then (line.filter fun i => (b.getD i none).isNone).head?
        else none := by
  have hfst : (line_scan b s line).1 = line.countP fun i => b.getD i none == some s := by
    unfold line_scan
    rw [line_scan_fst b s line (0, none), Nat.zero_add]
  have hsnd : (line_scan b s line).2
      = (line.filter fun i => (b.getD i none).isNone).foldl (fun _ i => some i) none := by
    unfold line_scan
    rw [line_scan_snd b s line (0, none)]
  have hlenfilter : (line.countP fun i => (b.getD i none).isNone)
      = (line.filter fun i => (b.getD i none).isNone).length :=
    List.countP_eq_length_filter _ _
  by_cases hc : (line.countP fun i => b.getD i none == some s) = 2
  · rw [if_pos (hfst ▸ hc), hsnd]
    have hdisj : (line.countP fun i => b.getD i none == some s)
        + (line.countP fun i => (b.getD i none).isNone) ≤ line.length := by
      apply countP_add_le_length
      intro a ha
      revert ha
      cases b.getD a none <;> simp
    rw [hc, hlen3, hlenfilter] at hdisj
    rcases hes : line.filter fun i => (b.getD i none).isNone with _ | ⟨e, tail⟩
    · have hcnt : (line.countP fun i => (b.getD i none).isNone) = 0 := by
        rw [hlenfilter, hes]
        rfl
      rw [List.foldl_nil]
      rw [if_neg (by
        intro hcon
        have h2 := hcon.2
        rw [hcnt] at h2
        exact absurd h2 (by decide))]
    · have htail : tail = [] := by
        rw [hes, List.length_cons] at hdisj
        rw [← List.length_eq_zero]
        omega
      subst htail
      have hcnt : (line.countP fun i => (b.getD i none).isNone) = 1 := by
        rw [hlenfilter, hes]
        rfl
      rw [List.foldl_cons, List.foldl_nil]
      rw [if_pos ⟨hc, hcnt⟩, List.head?_cons]
  · rw [if_neg (hfst ▸ hc), if_neg (by
      intro hcon
      exact hc hcon.1)]

/-- `_find_win_move` meets the spec-side characterisation exactly. -/
theorem find_win_move_eq_spec (b : Board) (s : Side) :
    find_win_move b s = firstQualifyingWinSpec b s := by
  unfold find_win_move firstQualifyingWinSpec
  apply findSome?_congr_mem
  intro line hline
  have hall : ∀ l ∈ to_checks, l.length = 3 := by decide
  exact line_decision b s line (hall line hline)

/--
State-passing embedding of the generator `_move_scores` as it actually runs
in Python: the shared board is threaded through the loop; for each empty
cell the mark is placed on it (`b1`), the score computed, the mark removed
again (`b2`) before the pair is yielded and the next candidate considered.
`move_scores_st_spec` proves the mutation is invisible from outside.
-/
def move_scores_st (current_side : Side) (is_maximizing : Bool) :
    List Nat → Board → List (Nat × Int) × Board
  | [], board => ([], board)
  | i :: rest, board =>
    let b1 := board.set i
      (some (if is_maximizing then current_side else current_side.swap_side))
    let sc := max_score b1 current_side is_maximizing
    let b2 := b1.set i none
    let r := move_scores_st current_side is_maximizing rest b2
    ((i, sc) :: r.1, r.2)

theorem set_none_of_getD_none :
    ∀ (b : Board) (i : Nat), b.getD i none = none → b.set i none = b
  | [], _, _ => rfl
  | c :: rest, 0, h => by
    rw [List.getD_cons_zero] at h
    rw [h]
    rfl
  | c :: rest, n + 1, h => by
    rw [List.getD_cons_succ] at h
    rw [List.set_cons_succ, set_none_of_getD_none rest n h]

theorem move_scores_st_go (s : Side) (m : Bool) :
    ∀ (l : List Nat) (b : Board), (∀ i ∈ l, b.getD i none = none) →
      move_scores_st s m l b
        = (l.map fun i =>
            (i, max_score (b.set i (some (if m then s else s.swap_side))) s m), b)
  | [], b, _ => rfl
  | i :: rest, b, h => by
    rw [move_scores_st, List.map_cons]
    have hcell := h i (List.mem_cons_self i rest)
    have hrestore : (b.set i (some (if m then s else s.swap_side))).set i none = b := by
      rw [List.set_set]
      exact set_none_of_getD_none b i hcell
    rw [hrestore]
    rw [move_scores_st_go s m rest b fun j hj => h j (List.mem_cons_of_mem i hj)]

theorem all_isNone_eq_replicate (b : Board) (hlen : b.length = 9)
    (hall : (b.all fun tile => tile.isNone) = true) :
    b = List.replicate 9 (none : Option Side) := by
  rw [List.eq_replicate_iff]
  refine ⟨hlen, ?_⟩
  intro tile htile
  have := List.all_eq_true.1 hall tile htile
  revert this
  cases tile <;> simp

theorem decide_move_deep_eq (tc : ℚ × ℚ) (b : Board) (s : Side) (r1 r2 : ℚ)
    (pick : List Nat → Nat)
    (hall : (b.all fun tile => tile.isNone) = false) (hr1 : r1 < tc.1) :
    decide_move tc b s r1 r2 pick = deep_move b s pick := by
  unfold decide_move deep_move
  rw [hall]
  simp only [Bool.false_eq_true, if_false]
  rw [if_neg (not_le.mpr hr1)]

/-- The deep path always returns a move carrying the maximal minimax score
among all legal moves. -/
theorem deep_move_spec (b : Board) (s : Side) (pick : List Nat → Nat)
    (hemp : (b.any fun tile => tile.isNone) = true)
    (hpick : ∀ l : List Nat, l ≠ [] → pick l ∈ l) :
    ∃ sc, (deep_move b s pick, sc) ∈ move_scores b s true
      ∧ ∀ p ∈ move_scores b s true, p.2 ≤ sc := by
  unfold deep_move
  rcases hms : move_scores b s true with _ | ⟨⟨bm, ms⟩, rest⟩
  · exact absurd hms (move_scores_ne_nil b s true hemp)
  · obtain ⟨h1, h2, h3, h4⟩ := foldBest_invariant rest ([bm], ms) (by simp)
    have hpk := hpick (rest.foldl best_step ([bm], ms)).1 h1
    show ∃ sc, (pick (rest.foldl best_step ([bm], ms)).1, sc) ∈ (bm, ms) :: rest
      ∧ ∀ p ∈ (bm, ms) :: rest, p.2 ≤ sc
    refine ⟨(rest.foldl best_step ([bm], ms)).2, ?_, ?_⟩
    · rcases h2 _ hpk with hmem | ⟨hacc, hval⟩
      · exact List.mem_cons_of_mem _ hmem
      · rcases List.mem_singleton.1 hacc with heq
        rw [heq, hval]
        exact List.mem_cons_self _ rest
    · intro p hp
      rcases List.mem_cons.1 hp with rfl | hpr
      · exact h3
      · exact h4 p hpr

theorem mem_move_scores_true (b : Board) (s : Side) (j : Nat) (sc : Int)
    (h : (j, sc) ∈ move_scores b s true) :
    j ∈ emptyIdxs b ∧ sc = max_score (b.set j (some s)) s true :=
  mem_move_scores b s true j sc h

theorem getD_none_of_all (b : Board) (j : Nat)
    (hall : (b.all fun tile => tile.isNone) = true) (hj : j < b.length) :
    b.getD j none = none := by
  have hmem := List.all_eq_true.1 hall (b[j]) (List.getElem_mem hj)
  rw [List.getD_eq_getElem b none hj]
  revert hmem
  cases b[j] <;> simp

theorem bool_eq_false_of_not {x : Bool} (h : ¬ x = true) : x = false := by
  revert h
  cases x <;> simp

theorem pick_head_valid : ∀ l : List Nat, l ≠ [] → l.getD 0 0 ∈ l
  | [], h => absurd rfl h
  | a :: l, _ => by
    rw [List.getD_cons_zero]
    exact List.mem_cons_self a l

theorem pick_second_valid : ∀ l : List Nat, l ≠ [] → l.getD 1 (l.getD 0 0) ∈ l
  | [], h => absurd rfl h
  | [a], _ => by
    rw [List.getD_cons_succ]
    rw [List.getD_cons_zero]
    exact List.mem_cons_self a []
  | a :: c :: l, _ => by
    rw [List.getD_cons_succ, List.getD_cons_zero]
    exact List.mem_cons_of_mem a (List.mem_cons_self c l)

/--
Claim C4: `_find_win_move` scans the 8 winning lines in the fixed order
rows, columns, diagonals, and returns the unique empty cell of the first
line with exactly 2 cells occupied by `side` and exactly 1 empty cell, or
none when no line qualifies (`firstQualifyingWinSpec` is exactly that
spec-side description).  The function is pure, so the board is never
modified.
-/
theorem claim_C4_find_win_move_follows_spec (board : Board) (side : Side) :
    find_win_move board side = firstQualifyingWinSpec board side :=
  find_win_move_eq_spec board side

/--
Claim C7: the search never mutates the board visible to the caller.  The
state-passing embedding `move_scores_st` threads the Python generator's
shared board through the loop, placing each mark and removing it again; a
full pass returns exactly the pure `_move_scores` pairs and hands the board
back unchanged, equal to its value on entry.
-/
theorem claim_C7_board_restored (b : Board) (s : Side) (m : Bool) :
    move_scores_st s m (emptyIdxs b) b = (move_scores b s m, b) := by
  rw [move_scores_st_go s m (emptyIdxs b) b
    (fun i hi => ((mem_emptyIdxs b i).1 hi).2)]
  rfl

/--
Claim C8: with the default configuration `think_chance = (1.0, 1.0)`, on
any board that is not entirely empty, every draw `r1` in `[0,1)` satisfies
`r1 < 1.0`, so `decide_move` always takes the full minimax path
(`deep_move`); the shallow win/block branch and the uniform random-move
branch are never executed.
-/
theorem claim_C8_default_is_always_deep (b : Board) (s : Side) (r1 r2 : ℚ)
    (pick : List Nat → Nat)
    (hne : (b.all fun tile => tile.isNone) = false)
    (hr1a : 0 ≤ r1) (hr1b : r1 < 1) :
    decide_move (1, 1) b s r1 r2 pick = deep_move b s pick :=
  decide_move_deep_eq (1, 1) b s r1 r2 pick hne hr1b

/--
Claim C9: the mutual recursion of `_max_score` and `_move_scores` is
well-founded: each recursive call strictly decreases the number of empty
cells, and the full-board base case fires before any recursion.  The
fuel-indexed interpreter `max_score_fuel` (which returns none on fuel
exhaustion) therefore succeeds with `countEmpty board` fuel — at most 9 —
so every evaluation is a finite computation.
-/
theorem claim_C9_recursion_terminates (fuel : Nat) (board : Board)
    (current_side : Side) (is_maximizing : Bool)
    (h : countEmpty board ≤ fuel) :
    max_score_fuel fuel board current_side is_maximizing
      = some (max_score board current_side is_maximizing) :=
  max_score_fuel_eq fuel board current_side is_maximizing h

/-- Witness for C9 at a concrete board with one empty cell. -/
theorem claim_C9_witness :
    max_score_fuel 9
        [some Side.x, some Side.o, some Side.x, some Side.o, some Side.x,
          some Side.o, some Side.x, some Side.o, none] Side.x true
      = some (max_score
        [some Side.x, some Side.o, some Side.x, some Side.o, some Side.x,
          some Side.o, some Side.x, some Side.o, none] Side.x true) :=
  claim_C9_recursion_terminates 9
    [some Side.x, some Side.o, some Side.x, some Side.o, some Side.x,
      some Side.o, some Side.x, some Side.o, none] Side.x true (by decide)

/--
Claim C10: on every 9-cell board whatsoever — including states unreachable
by alternating play — `_find_win_move` is total (it is a function) and
returns either none or an in-range index of a cell that is empty on the
board; it never returns an occupied cell.
-/
theorem claim_C10_find_win_move_safe (b : Board) (s : Side)
    (hlen : b.length = 9) :
    find_win_move b s = none
      ∨ ∃ j, find_win_move b s = some j ∧ j < 9 ∧ b.getD j none = none := by
  rcases h : find_win_move b s with _ | j
  · exact Or.inl rfl
  · obtain ⟨hj, hcell⟩ := find_win_move_mem b s j h
    exact Or.inr ⟨j, rfl, hj, hcell⟩

/-- Witness for C10 at a board unreachable by legal play: both sides have a
completed line. -/
theorem claim_C10_witness :
    find_win_move
        [some Side.x, some Side.x, some Side.x, some Side.o, some Side.o,
          some Side.o, none, none, none] Side.x = none
      ∨ ∃ j, find_win_move
          [some Side.x, some Side.x, some Side.x, some Side.o, some Side.o,
            some Side.o, none, none, none] Side.x = some j
        ∧ j < 9
        ∧ List.getD
            [some Side.x, some Side.x, some Side.x, some Side.o, some Side.o,
              some Side.o, none, none, none] j none = none :=
  claim_C10_find_win_move_safe
    [some Side.x, some Side.x, some Side.x, some Side.o, some Side.o,
      some Side.o, none, none, none] Side.x rfl

/--
Claim C3: for every 9-cell board view with at least one empty cell, every
side, every probability configuration in `[0,1]²` and every outcome of the
random draws, `decide_move` returns an index below 9 whose cell is empty in
the input board view.
-/
theorem claim_C3_returns_empty_cell (tc : ℚ × ℚ) (b : Board) (s : Side)
    (r1 r2 : ℚ) (pick : List Nat → Nat)
    (htc1 : 0 ≤ tc.1 ∧ tc.1 ≤ 1) (htc2 : 0 ≤ tc.2 ∧ tc.2 ≤ 1)
    (hr1 : 0 ≤ r1 ∧ r1 < 1) (hr2 : 0 ≤ r2 ∧ r2 < 1)
    (hlen : b.length = 9)
    (hemp : (b.any fun tile => tile.isNone) = true)
    (hpick : ∀ l : List Nat, l ≠ [] → pick l ∈ l) :
    decide_move tc b s r1 r2 pick < 9
      ∧ b.getD (decide_move tc b s r1 r2 pick) none = none := by
  have hpe : pick (emptyIdxs b) < 9 ∧ b.getD (pick (emptyIdxs b)) none = none := by
    have hpk := hpick (emptyIdxs b) ((any_isNone_iff b).1 hemp)
    obtain ⟨hlt, hcell⟩ := (mem_emptyIdxs b _).1 hpk
    exact ⟨hlen ▸ hlt, hcell⟩
  by_cases hall : (b.all fun tile => tile.isNone) = true
  · have hdm : decide_move tc b s r1 r2 pick = pick (List.range 9) := by
      unfold decide_move
      rw [if_pos hall]
    have hpk := hpick (List.range 9) (by decide)
    have hlt : pick (List.range 9) < 9 := List.mem_range.1 hpk
    rw [hdm]
    exact ⟨hlt, getD_none_of_all b _ hall (by rw [hlen]; exact hlt)⟩
  · have hallf := bool_eq_false_of_not hall
    by_cases hdeep : r1 ≥ tc.1
    · have hdm : decide_move tc b s r1 r2 pick
          = if r2 < tc.2 then
              match find_win_move b s with
              | some a => a
              | none =>
                match find_win_move b s.swap_side with
                | some a => a
                | none => pick (emptyIdxs b)
            else pick (emptyIdxs b) := by
        unfold decide_move
        rw [hallf]
        simp only [Bool.false_eq_true, if_false]
        rw [if_pos hdeep]
      rw [hdm]
      by_cases hr2' : r2 < tc.2
      · rw [if_pos hr2']
        rcases hw : find_win_move b s with _ | j
        · rcases hw2 : find_win_move b s.swap_side with _ | j
          · exact hpe
          · obtain ⟨hj, hcell⟩ := find_win_move_mem b s.swap_side j hw2
            exact ⟨hj, hcell⟩
        · obtain ⟨hj, hcell⟩ := find_win_move_mem b s j hw
          exact ⟨hj, hcell⟩
      · rw [if_neg hr2']
        exact hpe
    · rw [decide_move_deep_eq tc b s r1 r2 pick hallf (lt_of_not_ge hdeep)]
      obtain ⟨sc, hmem, _⟩ := deep_move_spec b s pick hemp hpick
      obtain ⟨hidx, _⟩ := mem_move_scores_true b s _ sc hmem
      obtain ⟨hlt, hcell⟩ := (mem_emptyIdxs b _).1 hidx
      exact ⟨hlen ▸ hlt, hcell⟩

/-- Witness for C3: a mid-game board, probabilities (1/2, 1/2), draws 0, a
head-picking choice function. -/
theorem claim_C3_witness :
    decide_move ((1:ℚ)/2, (1:ℚ)/2)
        [some Side.x, none, none, none, some Side.o, none, none, none, none]
        Side.x 0 0 (fun l => l.getD 0 0) < 9
      ∧ List.getD
          [some Side.x, none, none, none, some Side.o, none, none, none, none]
          (decide_move ((1:ℚ)/2, (1:ℚ)/2)
            [some Side.x, none, none, none, some Side.o, none, none, none, none]
            Side.x 0 0 (fun l => l.getD 0 0)) none = none :=
  claim_C3_returns_empty_cell ((1:ℚ)/2, (1:ℚ)/2)
    [some Side.x, none, none, none, some Side.o, none, none, none, none]
    Side.x 0 0 (fun l => l.getD 0 0)
    (by norm_num) (by norm_num) (by norm_num) (by norm_num)
    rfl (by decide) pick_head_valid

/--
Claim C6 counterexample: on the board `[X, X, None, O, O, None, None, None,
None]` with side X to move, `thinkChanceDeep = 0` and `thinkChanceShallow =
1.0`, a legitimate outcome of the draws (`r1 = 1/2 ∈ [0,1)`, `r2 = 0`, a
head-picking choice function) makes `decide_move` return 2 — its own
winning move completing row 0-1-2, found by the first `_find_win_move`
call — and not 5 as the claim demands.
-/
theorem claim_C6_counterexample :
    ((0:ℚ) ≤ 1/2 ∧ (1/2:ℚ) < 1)
      ∧ (∀ l : List Nat, l ≠ [] → l.getD 0 0 ∈ l)
      ∧ decide_move (0, 1)
          [some Side.x, some Side.x, none, some Side.o, some Side.o, none,
            none, none, none]
          Side.x (1/2) 0 (fun l => l.getD 0 0) = 2 := by
  refine ⟨⟨by norm_num, by norm_num⟩, pick_head_valid, ?_⟩
  unfold decide_move
  split
  · rename_i h
    exact absurd h (by decide)
  · split
    · split
      · rw [show find_win_move
            [some Side.x, some Side.x, none, some Side.o, some Side.o, none,
              none, none, none] Side.x = some 2 from by decide]
      · rename_i h
        exact absurd (by norm_num : (0:ℚ) < 1) h
    · rename_i h
      exact absurd (by norm_num : ((1:ℚ)/2) ≥ 0) h

theorem decide_move_shallow_win (tc : ℚ × ℚ) (b : Board) (s : Side)
    (r1 r2 : ℚ) (pick : List Nat → Nat) (j : Nat)
    (hall : (b.all fun tile => tile.isNone) = false)
    (hdeepskip : r1 ≥ tc.1) (hshallow : r2 < tc.2)
    (hw : find_win_move b s = some j) :
    decide_move tc b s r1 r2 pick = j := by
  unfold decide_move
  rw [hall]
  simp only [Bool.false_eq_true, if_false]
  rw [if_pos hdeepskip, if_pos hshallow, hw]

/--
Claim C6 (amended): on the board `[X, X, None, O, O, None, None, None,
None]` with side X to move, `thinkChanceDeep = 0` and `thinkChanceShallow =
1.0`, `decide_move` returns 2 for every outcome of the random draws: the
shallow path checks X's own winning move first and row 0-1-2 is completed
at 2, so the block at 5 is never considered.
-/
theorem claim_C6_amended (r1 r2 : ℚ) (pick : List Nat → Nat)
    (hr1a : 0 ≤ r1) (hr1b : r1 < 1) (hr2a : 0 ≤ r2) (hr2b : r2 < 1)
    (hpick : ∀ l : List Nat, l ≠ [] → pick l ∈ l) :
    decide_move (0, 1)
        [some Side.x, some Side.x, none, some Side.o, some Side.o, none,
          none, none, none]
        Side.x r1 r2 pick = 2 :=
  decide_move_shallow_win (0, 1)
    [some Side.x, some Side.x, none, some Side.o, some Side.o, none,
      none, none, none]
    Side.x r1 r2 pick 2 (by decide) hr1a hr2b (by decide)

/-- Witness for the amended C6 at the concrete outcome `r1 = 1/2`,
`r2 = 0`, head-picking choice function. -/
theorem claim_C6_witness :
    decide_move (0, 1)
        [some Side.x, some Side.x, none, some Side.o, some Side.o, none,
          none, none, none]
        Side.x ((1:ℚ)/2) 0 (fun l => l.getD 0 0) = 2 :=
  claim_C6_amended ((1:ℚ)/2) 0 (fun l => l.getD 0 0)
    (by norm_num) (by norm_num) (by norm_num) (by norm_num) pick_head_valid

/--
Claim C8 witness at a concrete near-default position: `decide_move` with
both probabilities 1.0 equals the pure deep-search path.
-/
theorem claim_C8_witness :
    decide_move (1, 1)
        [some Side.x, some Side.x, none, some Side.o, some Side.o, none,
          none, none, none]
        Side.x 0 0 (fun l => l.getD 0 0)
      = deep_move
        [some Side.x, some Side.x, none, some Side.o, some Side.o, none,
          none, none, none]
        Side.x (fun l => l.getD 0 0) :=
  claim_C8_default_is_always_deep
    [some Side.x, some Side.x, none, some Side.o, some Side.o, none,
      none, none, none]
    Side.x 0 0 (fun l => l.getD 0 0) (by decide) (by norm_num) (by norm_num)

/--
Claim C2 counterexample: on the full (unreachable-by-alternating-play)
board `[O, O, O, X, X, O, X, O, X]` with `rootSide = X` and
`maximizing = true`, `_max_score` returns 0 via its full-board base case,
while the game-theoretic value of the position is -1 (the opponent O has
completed the top row, so rootSide X has lost).  The claim's "for every
9-cell board" is therefore too broad.
-/
theorem claim_C2_counterexample :
    max_score
        [some Side.o, some Side.o, some Side.o, some Side.x, some Side.x,
          some Side.o, some Side.x, some Side.o, some Side.x] Side.x true = 0
      ∧ gameValueSpec
        [some Side.o, some Side.o, some Side.o, some Side.x, some Side.x,
          some Side.o, some Side.x, some Side.o, some Side.x] Side.x true = -1 := by
  constructor
  · exact max_score_eval 0 _ Side.x true 0 rfl (by decide) (by decide)
  · rw [gameValueSpec]
    rw [show has_won
        [some Side.o, some Side.o, some Side.o, some Side.x, some Side.x,
          some Side.o, some Side.x, some Side.o, some Side.x] Side.x = false
      from by decide]
    rw [show has_won
        [some Side.o, some Side.o, some Side.o, some Side.x, some Side.x,
          some Side.o, some Side.x, some Side.o, some Side.x] Side.x.swap_side = true
      from by decide]
    simp

/--
Claim C2 (amended): for every 9-cell board whose side-to-move (the opponent
of rootSide when `maximizing` is true, rootSide itself when false) has not
already won, `_max_score` returns a value in {-1, 0, 1} equal to the
game-theoretic value of the position from rootSide's fixed perspective
under optimal play (`gameValueSpec`); the value lies in {-1, 0, 1}
unconditionally.
-/
theorem claim_C2_amended (board : Board) (root_side : Side) (m : Bool)
    (hlen : board.length = 9)
    (hmover : has_won board (if m then root_side.swap_side else root_side) = false) :
    (max_score board root_side m = -1 ∨ max_score board root_side m = 0
        ∨ max_score board root_side m = 1)
      ∧ max_score board root_side m = gameValueSpec board root_side m :=
  ⟨max_score_range board root_side m,
    max_score_eq_gameValueSpec board root_side m hmover⟩

/-- Witness for the amended C2 at a concrete mid-game board. -/
theorem claim_C2_witness :
    (max_score
        [some Side.x, some Side.x, none, none, some Side.o, none, none, none,
          none] Side.x true = -1
      ∨ max_score
        [some Side.x, some Side.x, none, none, some Side.o, none, none, none,
          none] Side.x true = 0
      ∨ max_score
        [some Side.x, some Side.x, none, none, some Side.o, none, none, none,
          none] Side.x true = 1)
      ∧ max_score
        [some Side.x, some Side.x, none, none, some Side.o, none, none, none,
          none] Side.x true
        = gameValueSpec
          [some Side.x, some Side.x, none, none, some Side.o, none, none, none,
            none] Side.x true :=
  claim_C2_amended
    [some Side.x, some Side.x, none, none, some Side.o, none, none, none, none]
    Side.x true rfl (by decide)

/-- The move scores on the board `[X, X, _, _, O, _, _, _, _]` with X to
move: completing the row at 2 wins, but 3, 6, 7 and 8 also force a win
(each creates a double threat), while 5 only draws. -/
theorem move_scores_board5 :
    move_scores
        [some Side.x, some Side.x, none, none, some Side.o, none, none, none,
          none] Side.x true
      = [(2, 1), (3, 1), (5, 0), (6, 1), (7, 1), (8, 1)] := by
  have h2 : max_score
      ([some Side.x, some Side.x, none, none, some Side.o, none, none, none,
        none].set 2 (some Side.x)) Side.x true = 1 :=
    max_score_eval 9 _ Side.x true 1 rfl (by decide) (by decide)
  have h3 : max_score
      ([some Side.x, some Side.x, none, none, some Side.o, none, none, none,
        none].set 3 (some Side.x)) Side.x true = 1 :=
    max_score_eval 9 _ Side.x true 1 rfl (by decide) (by decide)
  have h5 : max_score
      ([some Side.x, some Side.x, none, none, some Side.o, none, none, none,
        none].set 5 (some Side.x)) Side.x true = 0 :=
    max_score_eval 9 _ Side.x true 0 rfl (by decide) (by decide)
  have h6 : max_score
      ([some Side.x, some Side.x, none, none, some Side.o, none, none, none,
        none].set 6 (some Side.x)) Side.x true = 1 :=
    max_score_eval 9 _ Side.x true 1 rfl (by decide) (by decide)
  have h7 : max_score
      ([some Side.x, some Side.x, none, none, some Side.o, none, none, none,
        none].set 7 (some Side.x)) Side.x true = 1 :=
    max_score_eval 9 _ Side.x true 1 rfl (by decide) (by decide)
  have h8 : max_score
      ([some Side.x, some Side.x, none, none, some Side.o, none, none, none,
        none].set 8 (some Side.x)) Side.x true = 1 :=
    max_score_eval 9 _ Side.x true 1 rfl (by decide) (by decide)
  show (emptyIdxs
      [some Side.x, some Side.x, none, none, some Side.o, none, none, none,
        none]).map
      (fun i => (i, max_score
        ([some Side.x, some Side.x, none, none, some Side.o, none, none, none,
          none].set i (some Side.x)) Side.x true))
    = [(2, 1), (3, 1), (5, 0), (6, 1), (7, 1), (8, 1)]
  rw [show emptyIdxs
      [some Side.x, some Side.x, none, none, some Side.o, none, none, none,
        none] = [2, 3, 5, 6, 7, 8] from rfl]
  rw [List.map_cons, List.map_cons, List.map_cons, List.map_cons,
    List.map_cons, List.map_cons, List.map_nil]
  rw [h2, h3, h5, h6, h7, h8]

/--
Claim C5 counterexample: on `[X, X, None, None, O, None, None, None, None]`
with X to move and `thinkChanceDeep = 1.0`, move 3 also scores +1 (it
creates the double threat 2/6), so it ties with move 2 and the random
tie-break may return it: with the legitimate choice function picking the
second tied element, `decide_move` returns 3, not 2.
-/
theorem claim_C5_counterexample :
    (∀ l : List Nat, l ≠ [] → l.getD 1 (l.getD 0 0) ∈ l)
      ∧ decide_move (1, 1)
          [some Side.x, some Side.x, none, none, some Side.o, none, none,
            none, none]
          Side.x 0 0 (fun l => l.getD 1 (l.getD 0 0)) = 3 := by
  refine ⟨pick_second_valid, ?_⟩
  rw [decide_move_deep_eq (1, 1)
    [some Side.x, some Side.x, none, none, some Side.o, none, none, none,
      none] Side.x 0 0 (fun l => l.getD 1 (l.getD 0 0)) (by decide)
    (by norm_num)]
  unfold deep_move
  rw [move_scores_board5]
  rfl

/--
Claim C5 (amended): on `[X, X, None, None, O, None, None, None, None]` with
X to move and `thinkChanceDeep = 1.0`, `decide_move` always returns a move
in {2, 3, 6, 7, 8} — the set of moves attaining the maximal minimax score
+1, which contains the claimed move 2 but not only it.
-/
theorem claim_C5_amended (tc2 r1 r2 : ℚ) (pick : List Nat → Nat)
    (hr1a : 0 ≤ r1) (hr1b : r1 < 1) (hr2a : 0 ≤ r2) (hr2b : r2 < 1)
    (hpick : ∀ l : List Nat, l ≠ [] → pick l ∈ l) :
    decide_move (1, tc2)
        [some Side.x, some Side.x, none, none, some Side.o, none, none, none,
          none]
        Side.x r1 r2 pick ∈ ([2, 3, 6, 7, 8] : List Nat) := by
  rw [decide_move_deep_eq (1, tc2)
    [some Side.x, some Side.x, none, none, some Side.o, none, none, none,
      none] Side.x r1 r2 pick (by decide) hr1b]
  unfold deep_move
  rw [move_scores_board5]
  show pick (List.foldl best_step ([2], (1 : Int))
      [(3, 1), (5, 0), (6, 1), (7, 1), (8, 1)]).1 ∈ ([2, 3, 6, 7, 8] : List Nat)
  rw [show (List.foldl best_step ([2], (1 : Int))
      [(3, 1), (5, 0), (6, 1), (7, 1), (8, 1)]).1 = [2, 3, 6, 7, 8] from by decide]
  exact hpick [2, 3, 6, 7, 8] (by decide)

/-- Witness for the amended C5 at the concrete outcome `r1 = r2 = 0` with a
head-picking choice function (which returns the claimed move 2). -/
theorem claim_C5_witness :
    decide_move (1, 1)
        [some Side.x, some Side.x, none, none, some Side.o, none, none, none,
          none]
        Side.x 0 0 (fun l => l.getD 0 0) ∈ ([2, 3, 6, 7, 8] : List Nat) :=
  claim_C5_amended 1 0 0 (fun l => l.getD 0 0)
    (by norm_num) (by norm_num) (by norm_num) (by norm_num) pick_head_valid

/--
Claim C1: with `thinkChanceDeep = 1.0`, from every 9-cell board with at
least one empty cell from which the side to move can force at least a draw
under optimal play (`gameValueSpec` at least 0 with the root side to move),
every move `decide_move` can return — for any outcomes of the random draws
and of the random tie-break — has a minimax score of at least 0, i.e. it
never leads to a loss under subsequent optimal opponent play.
-/
theorem claim_C1_never_loses (b : Board) (s : Side) (tc2 r1 r2 : ℚ)
    (pick : List Nat → Nat)
    (hlen : b.length = 9)
    (hemp : (b.any fun tile => tile.isNone) = true)
    (hpick : ∀ l : List Nat, l ≠ [] → pick l ∈ l)
    (hr1 : 0 ≤ r1 ∧ r1 < 1) (hr2 : 0 ≤ r2 ∧ r2 < 1)
    (hdraw : 0 ≤ gameValueSpec b s false) :
    0 ≤ max_score (b.set (decide_move (1, tc2) b s r1 r2 pick) (some s)) s true := by
  by_cases hall : (b.all fun tile => tile.isNone) = true
  · have hdm : decide_move (1, tc2) b s r1 r2 pick = pick (List.range 9) := by
      unfold decide_move
      rw [if_pos hall]
    have hb := all_isNone_eq_replicate b hlen hall
    rw [hdm, hb]
    exact opening_nonneg s _ (List.mem_range.1 (hpick (List.range 9) (by decide)))
  · have hallf := bool_eq_false_of_not hall
    rw [decide_move_deep_eq (1, tc2) b s r1 r2 pick hallf hr1.2]
    obtain ⟨sc, hmem, hmax⟩ := deep_move_spec b s pick hemp hpick
    obtain ⟨hidx, hsc⟩ := mem_move_scores_true b s _ sc hmem
    rw [← hsc]
    by_cases hw : has_won b s = true
    · obtain ⟨hlt, hcell⟩ := (mem_emptyIdxs b _).1 hidx
      rw [hsc]
      have hwin := has_won_set_mono b _ s hlt hw
      rw [max_score, hwin]
      norm_num
    · have hwf := bool_eq_false_of_not hw
      rw [gameValueSpec, hwf] at hdraw
      by_cases hw2 : has_won b s.swap_side = true
      · rw [hw2] at hdraw
        simp at hdraw
      · have hw2f := bool_eq_false_of_not hw2
        rw [hw2f] at hdraw
        rw [show (!(b.any fun tile => tile.isNone)) = false from by
          rw [hemp]
          rfl] at hdraw
        simp only [Bool.false_eq_true, Bool.not_false, if_false] at hdraw
        have hvals_ne := scores_ne_nil b
          (fun p => gameValueSpec (b.set p.1 (some s)) s true)
          (by
            rw [hemp]
            simp)
        have hvm := maxOfList_mem _ hvals_ne
        obtain ⟨p, _, hpv⟩ := List.mem_map.1 hvm
        obtain ⟨hplt, hpcell⟩ := (mem_emptyIdxs b p.1).1 p.2
        have hbridge : max_score (b.set p.1 (some s)) s true
            = gameValueSpec (b.set p.1 (some s)) s true :=
          max_score_eq_gameValueSpec (b.set p.1 (some s)) s true
            (show has_won (b.set p.1 (some s)) s.swap_side = false from by
              rw [has_won_set_other b p.1 s s.swap_side (ne_swap_side s) hpcell]
              exact hw2f)
        have hpair : (p.1, max_score (b.set p.1 (some s)) s true)
            ∈ move_scores b s true := by
          unfold move_scores
          rw [List.mem_map]
          exact ⟨p.1, p.2, rfl⟩
        have hle := hmax _ hpair
        rw [← hpv, ← hbridge] at hdraw
        exact le_trans hdraw hle

/-- Witness for C1: a drawable (indeed winning) position one move from the
end; the conclusion certifies the single returned move is not losing. -/
theorem claim_C1_witness :
    0 ≤ max_score
      ([some Side.x, some Side.o, some Side.x, some Side.o, some Side.x,
        some Side.o, some Side.o, some Side.x, none].set
        (decide_move (1, 1)
          [some Side.x, some Side.o, some Side.x, some Side.o, some Side.x,
            some Side.o, some Side.o, some Side.x, none]
          Side.x 0 0 (fun l => l.getD 0 0))
        (some Side.x)) Side.x true :=
  claim_C1_never_loses
    [some Side.x, some Side.o, some Side.x, some Side.o, some Side.x,
      some Side.o, some Side.o, some Side.x, none]
    Side.x 1 0 0 (fun l => l.getD 0 0) rfl (by decide) pick_head_valid
    (by norm_num) (by norm_num)
    (by
      rw [← max_score_eq_gameValueSpec
        [some Side.x, some Side.o, some Side.x, some Side.o, some Side.x,
          some Side.o, some Side.o, some Side.x, none] Side.x false (by decide)]
      rw [max_score_eval 1
        [some Side.x, some Side.o, some Side.x, some Side.o, some Side.x,
          some Side.o, some Side.o, some Side.x, none] Side.x false 1 rfl
        (by decide) (by decide)]
      norm_num)

end MinimaxAi

